import Mathlib

/-!
Shallow embedding of `src/library/trust-file.c` (fapolicyd trust-file engine).

A trust file is modelled as a list of lines; each line is a `List Char`
(the trailing newline is stripped: `fgets` keeps it, but the first-byte
comment test and `sscanf` treat `'\n'` as whitespace, so nothing depends
on it except that an empty physical line reads as `"\n"`, whose first
byte is a control character — hence the empty modelled line counts as a
comment below).  Lines are assumed to fit the C code's `BUFFER_SIZE`
read buffer (the author's budget `4096+1+1+1+10+1+64+1`), so one
physical line is one `fgets` read and one `snprintf` rendering.

The generic list container (`llist.c`) and the backend header
(`fapolicyd-backend.h`, providing `DATA_FORMAT` and `SRC_FILE_DB`) are
not part of the given sources; they are modelled from the spec (§4.2
Record Store contract, §3 internal encoding contract) where noted.
-/

namespace TrustFile

/-! ### ctype.h character classes (C locale, ASCII) -/

/-- C `isspace`: space, tab, newline, vertical tab, form feed, carriage return. -/
def isWsC (c : Char) : Bool :=
  c = ' ' || c = '\t' || c = '\n' || c = '\r' || c.toNat = 11 || c.toNat = 12

/-- C `iscntrl`: ASCII 0..31 and 127. -/
def isCntrlC (c : Char) : Bool :=
  c.toNat < 32 || c.toNat = 127

/-- C `isdigit`: ASCII '0'..'9'. -/
def isDigitC (c : Char) : Bool :=
  48 ≤ c.toNat && c.toNat ≤ 57

/-! ### sscanf model for `FILE_READ_FORMAT = "%4096s %lu %64s"` -/

/-- Skip leading whitespace, as every `sscanf` conversion here does. -/
def skipWs : List Char → List Char
  | [] => []
  | c :: cs => if isWsC c then skipWs cs else c :: cs

/-- Conversion `%Ns`: read up to `max` non-whitespace characters. -/
def readTok : Nat → List Char → List Char × List Char
  | 0, cs => ([], cs)
  | _ + 1, [] => ([], [])
  | n + 1, c :: cs =>
    if isWsC c then ([], c :: cs)
    else
      let r := readTok n cs
      (c :: r.1, r.2)

/-- The `strtoul` digit run: all consecutive decimal digits. -/
def readDigits : List Char → List Char × List Char
  | [] => ([], [])
  | c :: cs =>
    if isDigitC c then
      let r := readDigits cs
      (c :: r.1, r.2)
    else ([], c :: cs)

/-- Value of a decimal digit string (most significant first). -/
def digitsToNat (ds : List Char) : Nat :=
  ds.foldl (fun a c => a * 10 + (c.toNat - 48)) 0

/-- Value of `ULONG_MAX` on the LP64 targets fapolicyd builds for. -/
def ULONG_MAX : Nat := 2 ^ 64 - 1

/-- Optional sign accepted by `strtoul` (hence by `sscanf %lu`). -/
def splitSign : List Char → Bool × List Char
  | [] => (false, [])
  | c :: rest =>
    if c = '-' then (true, rest)
    else if c = '+' then (false, rest)
    else (false, c :: rest)

/-- One `%Ns` conversion: whitespace skip, then a nonempty token; fails at end of input. -/
def scanStr (max : Nat) (cs : List Char) : Option (List Char × List Char) :=
  match skipWs cs with
  | [] => none
  | c :: rest =>
    let r := readTok max (c :: rest)
    some (r.1, r.2)

/-- One `%lu` conversion: whitespace skip, optional sign, a nonempty digit run;
`strtoul` clamps overflow to `ULONG_MAX` and reduces a negated value mod 2^64. -/
def scanULong (cs : List Char) : Option (Nat × List Char) :=
  let s := splitSign (skipWs cs)
  let d := readDigits s.2
  if d.1 = [] then none
  else
    let v := digitsToNat d.1
    some ((if ULONG_MAX < v then ULONG_MAX
           else if s.1 then (2 ^ 64 - v % 2 ^ 64) % 2 ^ 64 else v), d.2)

/-- Result of `sscanf(buffer, "%4096s %lu %64s", name, &sz, sha) == 3`:
`some (name, sz, sha)` exactly when all three conversions succeed. -/
def scanLine (line : List Char) : Option (List Char × Nat × List Char) :=
  match scanStr 4096 line with
  | none => none
  | some (name, r1) =>
    match scanULong r1 with
    | none => none
    | some (sz, r2) =>
      match scanStr 64 r2 with
      | none => none
      | some (sha, _) => some (name, sz, sha)

/-! ### printf model for `%lu` / `%i` decimal rendering -/

/-- ASCII digit character for a value below ten. -/
def digitChar (d : Nat) : Char := Char.ofNat (48 + d)

/-- Decimal digits of `n`, most significant first; structural in the fuel so
that concrete instances evaluate in the kernel.  Adequate whenever `n < fuel`. -/
def natDigitsAux : Nat → Nat → List Char
  | 0, _ => []
  | fuel + 1, n =>
    if n < 10 then [digitChar n]
    else natDigitsAux fuel (n / 10) ++ [digitChar (n % 10)]

/-- Output of `printf("%lu", n)`. -/
def natRepr (n : Nat) : List Char := natDigitsAux (n + 1) n

/-! ### record encoding -/

/-- Modelled from the spec: `SRC_FILE_DB` comes from `fapolicyd-backend.h`,
which is not in the given sources; the spec (§3, §6) fixes only that the
source tag renders as a single digit followed by one separator character. -/
def SRC_FILE_DB : Nat := 1

/-- Modelled from the spec: `DATA_FORMAT` of `fapolicyd-backend.h` — the
internal encoding `"<source-tag><separator><size> <hash>"` whose first two
characters are the fixed-width source-tag prefix (§3, §6). -/
def mkData (t sz : Nat) (sha : List Char) : List Char :=
  natRepr t ++ ' ' :: natRepr sz ++ ' ' :: sha

/-- One in-memory record: `(index, data)` = (path key, encoded value). -/
abbrev Entry := List Char × List Char

/-! ### llist container — modelled from the spec's §4.2 Record Store contract
(`llist.c` is an external collaborator, not part of the given sources) -/

/-- Operation `list_contains`: key membership. -/
def list_contains (l : List Entry) (k : List Char) : Bool :=
  l.any (fun e => decide (e.1 = k))

/-- Operation `list_remove`: drop the record with the given key (unique-key stores make
removing all occurrences and removing the one occurrence coincide). -/
def list_remove (l : List Entry) (k : List Char) : List Entry :=
  l.filter (fun e => ! decide (e.1 = k))

/-- Operation `list_merge dest src`: move the records of `src` into `dest`; a record
whose key already exists in `dest` is dropped — keep existing, drop incoming. -/
def list_merge (dest src : List Entry) : List Entry :=
  dest ++ src.filter (fun e => ! list_contains dest e.1)

/-! ### trust_file_load -/

/-- First-byte comment test of `trust_file_load` / `trust_file_rm_duplicates`:
`iscntrl(buffer[0]) || buffer[0] == '#'` (an empty modelled line is the
physical line `"\n"`, whose first byte is a control character). -/
def isComment (line : List Char) : Bool :=
  match line with
  | [] => true
  | c :: _ => isCntrlC c || c = '#'

/-- Function `trust_file_load`: scan each line; skip comments; on a line that fails the
three-token scan, warn and return 2 with the records accumulated so far; a key
already present is dropped with a warning (first wins); otherwise append.
(Heap-allocation failure branches are modelled as always succeeding.) -/
def trust_file_load : List (List Char) → List Entry → Nat × List Entry
  | [], list => (0, list)
  | line :: rest, list =>
    if isComment line then trust_file_load rest list
    else
      match scanLine line with
      | none => (2, list)
      | some (name, sz, sha) =>
        if list_contains list name then trust_file_load rest list
        else trust_file_load rest (list ++ [(name, mkData SRC_FILE_DB sz sha)])

/-! ### write_out_list -/

def HEADER1 : List Char := "# This file contains a list of trusted files".data

def HEADER2 : List Char := "#".data

def HEADER3 : List Char := "#  FULL PATH        SIZE                             SHA256".data

def HEADER4 : List Char :=
  "# /home/user/my-ls 157984 61a9960bf7d255a85811f4afcac51067b8f2e4c75e21cf4f2af95319d4ed1b87".data

def headerLines : List (List Char) := [HEADER1, HEADER2, HEADER3, HEADER4]

/-- One record line of `write_out_list`: `snprintf(buf, _, "%s %s\n", index, str + 2)` —
the path key, a space, and the stored value with its first two characters stripped. -/
def renderEntry (e : Entry) : List Char :=
  e.1 ++ ' ' :: e.2.drop 2

/-- Function `write_out_list` on the success path: the four header lines followed by
one rendered line per record. -/
def write_out_list (l : List Entry) : List (List Char) :=
  headerLines ++ l.map renderEntry

/-! ### trust_file_delete_path -/

/-- The unlink loop of `trust_file_delete_path`: `strncmp(lptr->index, path,
strlen(path)) == 0` holds exactly when `path` is a literal prefix of the key
(a shorter key terminates the comparison with a NUL mismatch); matching
records are unlinked and counted, the rest survive in order. -/
def removeMatching (p : List Char) : List Entry → Nat × List Entry
  | [] => (0, [])
  | e :: rest =>
    let r := removeMatching p rest
    if p.isPrefixOf e.1 then (r.1 + 1, r.2) else (r.1, e :: r.2)

/-- Function `trust_file_delete_path`, with the writability of the destination made
explicit: load the file, unlink every record whose key has `p` as prefix,
rewrite the file only when the count is nonzero (`fopen(dest, "w")` failing
is logged and otherwise ignored — the file keeps its old content), and
return the count regardless. -/
def trust_file_delete_path_w (writable : Bool) (content : List (List Char))
    (p : List Char) : Nat × List (List Char) :=
  let r := removeMatching p (trust_file_load content []).2
  (r.1, if r.1 = 0 then content else if writable then write_out_list r.2 else content)

/-- Function `trust_file_delete_path` when the destination can be rewritten. -/
def trust_file_delete_path (content : List (List Char)) (p : List Char) :
    Nat × List (List Char) :=
  trust_file_delete_path_w true content p

/-! ### trust_file_update_path -/

/-- The filesystem as the hash provider sees it: a path maps to its current
size and hex digest, or to nothing when `open`/`fstat` fails. -/
def Fs := List Char → Option (Nat × List Char)

/-- Function `make_path_string`: open and stat `path`, hash it, and format either the
on-disk line (`count` nonzero: `FILE_WRITE_FORMAT "%s %lu %s\n"`) or the
internal encoding (`count` zero: `DATA_FORMAT` with literal source tag 0).
`none` models the NULL return on open/stat failure. -/
def make_path_string (fs : Fs) (path : List Char) (trustFormat : Bool) :
    Option (List Char) :=
  match fs path with
  | none => none
  | some (sz, sha) =>
    some (if trustFormat then path ++ ' ' :: natRepr sz ++ ' ' :: sha ++ ['\n']
          else mkData 0 sz sha)

/-- The update loop of `trust_file_update_path`: on a prefix match the stored
value is freed and replaced by `make_path_string(index, &i)` with `i = 0`
(which is NULL — here `none` — when the path can no longer be opened), and
the count is incremented in every matching case. -/
def updateEntries (fs : Fs) (p : List Char) :
    List Entry → Nat × List (List Char × Option (List Char))
  | [] => (0, [])
  | e :: rest =>
    let r := updateEntries fs p rest
    if p.isPrefixOf e.1 then (r.1 + 1, (e.1, make_path_string fs e.1 false) :: r.2)
    else (r.1, (e.1, some e.2) :: r.2)

/-- Rendering one possibly-NULL record value: with a NULL value the C code
evaluates `str + 2` on a null pointer inside `snprintf` — undefined
behavior, modelled as `none` (no defined output). -/
def renderEntryOpt : List Char × Option (List Char) → Option (List Char)
  | (k, some d) => some (k ++ ' ' :: d.drop 2)
  | (_, none) => none

/-- Function `write_out_list` over possibly-NULL record values: defined output only
when every value is non-NULL. -/
def write_out_list_opt (l : List (List Char × Option (List Char))) :
    Option (List (List Char)) :=
  (l.mapM renderEntryOpt).map (fun ls => headerLines ++ ls)

/-- Function `trust_file_update_path`: load the file, re-derive every record whose key
has `p` as prefix from the live filesystem, rewrite when the count is
nonzero, return the count. -/
def trust_file_update_path (fs : Fs) (content : List (List Char))
    (p : List Char) : Nat × Option (List (List Char)) :=
  let r := updateEntries fs p (trust_file_load content []).2
  (r.1, if r.1 = 0 then some content else write_out_list_opt r.2)

/-! ### trust_file_rm_duplicates -/

/-- Function `trust_file_rm_duplicates`: scan each line; skip comments; a scan failure
warns and returns 2 with the candidates processed so far; otherwise remove
the scanned path from the candidate list and break out (returning 0) as soon
as the candidate list becomes empty. -/
def trust_file_rm_duplicates : List (List Char) → List Entry → Nat × List Entry
  | [], cand => (0, cand)
  | line :: rest, cand =>
    if isComment line then trust_file_rm_duplicates rest cand
    else
      match scanLine line with
      | none => (2, cand)
      | some (tpath, _, _) =>
        let cand' := list_remove cand tpath
        if cand'.length = 0 then (0, cand')
        else trust_file_rm_duplicates rest cand'

/-! ### whole-store operations (primary file + fragment tree) -/

/-- The `nftw(TRUST_DIR_PATH, ftw_load, ...)` traversal: each regular file
found is loaded into the shared accumulation list, in traversal order. -/
def ftw_load : List (List (List Char)) → List Entry → List Entry
  | [], acc => acc
  | f :: rest, acc => ftw_load rest (trust_file_load f acc).2

/-- Function `trust_file_load_all`: empty the accumulation list, load the primary
file, load every fragment file, then merge the accumulation into the
caller's list. -/
def trust_file_load_all (primary : List (List Char))
    (frags : List (List (List Char))) (list : List Entry) : List Entry :=
  list_merge list (ftw_load frags (trust_file_load primary []).2)

/-- The `nftw(TRUST_DIR_PATH, ftw_rm_duplicates, ...)` traversal: stop as
soon as the candidate list is empty, otherwise run the single-file pass on
each regular file. -/
def ftw_rm_duplicates : List (List (List Char)) → List Entry → List Entry
  | [], cand => cand
  | f :: rest, cand =>
    if cand.length = 0 then cand
    else ftw_rm_duplicates rest (trust_file_rm_duplicates f cand).2

/-- Function `trust_file_rm_duplicates_all`: move the caller's candidates into the
emptied accumulation list, scrub them against the primary file and then the
fragment tree (early-stopping when empty), and move the result back. -/
def trust_file_rm_duplicates_all (primary : List (List Char))
    (frags : List (List (List Char))) (cand : List Entry) : List Entry :=
  ftw_rm_duplicates frags (trust_file_rm_duplicates primary (list_merge [] cand)).2

/-! ### derived observations used in theorem statements -/

/-- The key a line contributes during a read pass: none for a comment or an
unscannable line, otherwise the scanned path token. -/
def lineKey (line : List Char) : Option (List Char) :=
  if isComment line then none
  else
    match scanLine line with
    | some r => some r.1
    | none => none

/-- Whether some line of a file contributes the key `k`. -/
def fileHasKey (lines : List (List Char)) (k : List Char) : Bool :=
  lines.any (fun l => decide (lineKey l = some k))

/-- Whether the key `k` is present in the primary file or any fragment file. -/
def diskHasKey (primary : List (List Char)) (frags : List (List (List Char)))
    (k : List Char) : Bool :=
  fileHasKey primary k || frags.any (fun f => fileHasKey f k)

/-- The key column of a store. -/
def keysOf (l : List Entry) : List (List Char) := l.map Prod.fst

/-- A well-formed scanned token: nonempty, within the field width, and free
of whitespace. -/
def wfTok (max : Nat) (t : List Char) : Prop :=
  t ≠ [] ∧ t.length ≤ max ∧ ∀ c ∈ t, isWsC c = false

/-- Every record `trust_file_load` creates: the key is a well-formed path
token, and the value is the internal encoding of a well-formed size and
hash. -/
def WfEntry (e : Entry) : Prop :=
  ∃ sz sha, sz ≤ ULONG_MAX ∧ wfTok 4096 e.1 ∧ wfTok 64 sha ∧
    e.2 = mkData SRC_FILE_DB sz sha

end TrustFile

namespace TrustFile

/-- Whether scanning may resume: end of input or a whitespace head both
terminate a `%Ns` token. -/
def headWs : List Char → Bool
  | [] => true
  | c :: _ => isWsC c

/-- Whether a digit run would continue into `r`. -/
def headDig : List Char → Bool
  | [] => false
  | c :: _ => isDigitC c

/-! ## Digit characters -/

theorem digitChar_toNat {d : Nat} (h : d < 10) : (digitChar d).toNat = 48 + d := by
  interval_cases d <;> decide

theorem digitChar_val {d : Nat} (h : d < 10) : (digitChar d).toNat - 48 = d := by
  interval_cases d <;> decide

theorem isDigitC_digitChar {d : Nat} (h : d < 10) : isDigitC (digitChar d) = true := by
  interval_cases d <;> decide

theorem isWsC_digitChar {d : Nat} (h : d < 10) : isWsC (digitChar d) = false := by
  interval_cases d <;> decide

theorem digitChar_ne_dash {d : Nat} (h : d < 10) : digitChar d ≠ '-' := by
  interval_cases d <;> decide

theorem digitChar_ne_plus {d : Nat} (h : d < 10) : digitChar d ≠ '+' := by
  interval_cases d <;> decide

/-! ## Decimal rendering -/

theorem natDigitsAux_ne_nil {fuel n : Nat} (h : n < fuel) : natDigitsAux fuel n ≠ [] := by
  cases fuel with
  | zero => omega
  | succ m =>
    rw [natDigitsAux]
    by_cases h10 : n < 10 <;> simp [h10]

theorem natDigitsAux_mem {fuel n : Nat} :
    ∀ c ∈ natDigitsAux fuel n, ∃ d, d < 10 ∧ c = digitChar d := by
  induction fuel generalizing n with
  | zero => intro c hc; simp [natDigitsAux] at hc
  | succ m ih =>
    intro c hc
    rw [natDigitsAux] at hc
    by_cases h10 : n < 10
    · simp [h10] at hc
      exact ⟨n, h10, hc⟩
    · simp [h10] at hc
      rcases hc with hc | hc
      · exact ih c hc
      · exact ⟨n % 10, Nat.mod_lt _ (by norm_num), hc⟩

theorem foldl_natDigitsAux {fuel : Nat} :
    ∀ {n acc : Nat}, n < fuel →
      List.foldl (fun a c => a * 10 + (c.toNat - 48)) acc (natDigitsAux fuel n)
        = acc * 10 ^ (natDigitsAux fuel n).length + n := by
  induction fuel with
  | zero => intro n acc h; omega
  | succ m ih =>
    intro n acc h
    by_cases h10 : n < 10
    · rw [natDigitsAux]
      simp [h10, List.foldl, digitChar_val h10]
    · have hdiv : n / 10 < m := by
        have h1 : n / 10 < n := Nat.div_lt_self (by omega) (by norm_num)
        omega
      rw [natDigitsAux]
      simp only [h10, if_false, List.foldl_append, List.length_append, List.length_singleton]
      rw [ih hdiv]
      simp only [List.foldl]
      rw [digitChar_val (Nat.mod_lt _ (by norm_num))]
      have key : n / 10 * 10 + n % 10 = n := by omega
      have expand :
          (acc * 10 ^ (natDigitsAux m (n / 10)).length + n / 10) * 10 + n % 10
            = acc * (10 ^ (natDigitsAux m (n / 10)).length * 10) + (n / 10 * 10 + n % 10) := by
        ring
      rw [expand, key, ← pow_succ]

theorem digitsToNat_natRepr (n : Nat) : digitsToNat (natRepr n) = n := by
  have := @foldl_natDigitsAux (n + 1) n 0 (by omega)
  simpa [digitsToNat, natRepr] using this

theorem natRepr_ne_nil (n : Nat) : natRepr n ≠ [] :=
  natDigitsAux_ne_nil (by omega)

theorem natRepr_mem {n : Nat} : ∀ c ∈ natRepr n, ∃ d, d < 10 ∧ c = digitChar d :=
  natDigitsAux_mem

theorem natRepr_all_digits {n : Nat} : ∀ c ∈ natRepr n, isDigitC c = true := by
  intro c hc
  obtain ⟨d, hd, rfl⟩ := natRepr_mem c hc
  exact isDigitC_digitChar hd

theorem natRepr_not_ws {n : Nat} : ∀ c ∈ natRepr n, isWsC c = false := by
  intro c hc
  obtain ⟨d, hd, rfl⟩ := natRepr_mem c hc
  exact isWsC_digitChar hd

theorem natRepr_lt_ten {t : Nat} (h : t < 10) : natRepr t = [digitChar t] := by
  rw [natRepr, natDigitsAux]
  simp [h]

theorem mkData_drop_two {t sz : Nat} {sha : List Char} (h : t < 10) :
    (mkData t sz sha).drop 2 = natRepr sz ++ ' ' :: sha := by
  rw [mkData, natRepr_lt_ten h]
  rfl

end TrustFile

namespace TrustFile

/-! ## Whitespace skipping -/

theorem skipWs_cons_not_ws {c : Char} {cs : List Char} (h : isWsC c = false) :
    skipWs (c :: cs) = c :: cs := by
  simp [skipWs, h]

theorem skipWs_cons_ws {c : Char} {cs : List Char} (h : isWsC c = true) :
    skipWs (c :: cs) = skipWs cs := by
  simp [skipWs, h]

theorem skipWs_head {c : Char} {l rest : List Char} (h : skipWs l = c :: rest) :
    isWsC c = false := by
  induction l with
  | nil => simp [skipWs] at h
  | cons a as ih =>
    rw [skipWs] at h
    by_cases ha : isWsC a
    · simp [ha] at h
      exact ih h
    · simp [ha] at h
      rcases h with ⟨rfl, _⟩
      simp [ha]

/-! ## Token reading -/

theorem readTok_exact {t : List Char} :
    ∀ {max : Nat} {r : List Char}, t.length ≤ max → (∀ c ∈ t, isWsC c = false) →
      headWs r = true → readTok max (t ++ r) = (t, r) := by
  induction t with
  | nil =>
    intro max r _ _ hr
    cases max with
    | zero => rfl
    | succ m =>
      cases r with
      | nil => rfl
      | cons c cs =>
        simp [headWs] at hr
        simp [readTok, hr]
  | cons a t' ih =>
    intro max r hlen hws hr
    cases max with
    | zero => simp at hlen
    | succ m =>
      have ha : isWsC a = false := hws a (by simp)
      have ht' : ∀ c ∈ t', isWsC c = false := fun c hc => hws c (by simp [hc])
      have hlen' : t'.length ≤ m := by simpa using hlen
      simp only [List.cons_append, readTok, ha, Bool.false_eq_true, if_false, List.append_eq]
      rw [ih hlen' ht' hr]

theorem readTok_not_ws {max : Nat} :
    ∀ {cs : List Char}, ∀ c ∈ (readTok max cs).1, isWsC c = false := by
  induction max with
  | zero => intro cs c hc; simp [readTok] at hc
  | succ m ih =>
    intro cs c hc
    cases cs with
    | nil => simp [readTok] at hc
    | cons a as =>
      rw [readTok] at hc
      by_cases ha : isWsC a
      · simp [ha] at hc
      · simp [ha] at hc
        rcases hc with rfl | hc
        · simpa using ha
        · exact ih c hc

theorem readTok_length {max : Nat} :
    ∀ {cs : List Char}, (readTok max cs).1.length ≤ max := by
  induction max with
  | zero => intro cs; simp [readTok]
  | succ m ih =>
    intro cs
    cases cs with
    | nil => simp [readTok]
    | cons a as =>
      rw [readTok]
      by_cases ha : isWsC a
      · simp [ha]
      · simp [ha]
        exact ih

theorem readTok_cons_not_ws {m : Nat} {c : Char} {cs : List Char} (h : isWsC c = false) :
    readTok (m + 1) (c :: cs) = (c :: (readTok m cs).1, (readTok m cs).2) := by
  simp [readTok, h]

/-! ## Digit-run reading -/

theorem readDigits_exact {t : List Char} :
    ∀ {r : List Char}, (∀ c ∈ t, isDigitC c = true) → headDig r = false →
      readDigits (t ++ r) = (t, r) := by
  induction t with
  | nil =>
    intro r _ hr
    cases r with
    | nil => rfl
    | cons c cs =>
      simp [headDig] at hr
      simp [readDigits, hr]
  | cons a t' ih =>
    intro r hdig hr
    have ha : isDigitC a = true := hdig a (by simp)
    have ht' : ∀ c ∈ t', isDigitC c = true := fun c hc => hdig c (by simp [hc])
    simp only [List.cons_append, readDigits, ha, if_true, List.append_eq]
    rw [ih ht' hr]

end TrustFile

namespace TrustFile

/-! ## Scan conversions on canonical input -/

theorem scanStr_cons_ws {max : Nat} {c : Char} {cs : List Char} (h : isWsC c = true) :
    scanStr max (c :: cs) = scanStr max cs := by
  rw [scanStr, scanStr, skipWs_cons_ws h]

theorem scanULong_cons_ws {c : Char} {cs : List Char} (h : isWsC c = true) :
    scanULong (c :: cs) = scanULong cs := by
  rw [scanULong, scanULong, skipWs_cons_ws h]

theorem scanStr_exact {t r : List Char} {max : Nat} (ht : wfTok max t)
    (hr : headWs r = true) : scanStr max (t ++ r) = some (t, r) := by
  obtain ⟨hne, hlen, hws⟩ := ht
  cases t with
  | nil => exact absurd rfl hne
  | cons c t' =>
    have hc : isWsC c = false := hws c (by simp)
    have hskip : skipWs ((c :: t') ++ r) = c :: (t' ++ r) := by
      rw [List.cons_append]
      exact skipWs_cons_not_ws hc
    rw [scanStr, hskip]
    have : readTok max (c :: (t' ++ r)) = (c :: t', r) := by
      rw [← List.cons_append]
      exact readTok_exact hlen hws hr
    simp [this]

theorem scanULong_exact {n : Nat} {r : List Char} (hn : n ≤ ULONG_MAX)
    (hr : headDig r = false) : scanULong (natRepr n ++ r) = some (n, r) := by
  obtain ⟨c, cs, hcons⟩ : ∃ c cs, natRepr n = c :: cs := by
    cases hnr : natRepr n with
    | nil => exact absurd hnr (natRepr_ne_nil n)
    | cons c cs => exact ⟨c, cs, rfl⟩
  obtain ⟨d, hd, hcd⟩ : ∃ d, d < 10 ∧ c = digitChar d := by
    apply @natRepr_mem n
    rw [hcons]
    simp
  have hcws : isWsC c = false := by
    apply @natRepr_not_ws n
    rw [hcons]
    simp
  have hskip : skipWs (natRepr n ++ r) = natRepr n ++ r := by
    rw [hcons, List.cons_append]
    exact skipWs_cons_not_ws hcws
  have hsign : splitSign (natRepr n ++ r) = (false, natRepr n ++ r) := by
    rw [hcons, List.cons_append, splitSign]
    rw [hcd]
    simp [digitChar_ne_dash hd, digitChar_ne_plus hd]
  have hdig : readDigits (natRepr n ++ r) = (natRepr n, r) :=
    readDigits_exact (natRepr_all_digits) hr
  rw [scanULong, hskip, hsign]
  simp only [hdig]
  have hval : digitsToNat (natRepr n) = n := digitsToNat_natRepr n
  have hnn : ¬ ULONG_MAX < n := not_lt.mpr hn
  simp [natRepr_ne_nil n, hval, hnn]

theorem scanLine_canonical {p sha : List Char} {n : Nat} {tail : List Char}
    (hp : wfTok 4096 p) (hh : wfTok 64 sha) (hn : n ≤ ULONG_MAX)
    (ht : headWs tail = true) :
    scanLine (p ++ ' ' :: (natRepr n ++ ' ' :: (sha ++ tail))) = some (p, n, sha) := by
  have h1 : scanStr 4096 (p ++ ' ' :: (natRepr n ++ ' ' :: (sha ++ tail)))
      = some (p, ' ' :: (natRepr n ++ ' ' :: (sha ++ tail))) :=
    scanStr_exact hp rfl
  have h2 : scanULong (' ' :: (natRepr n ++ ' ' :: (sha ++ tail)))
      = some (n, ' ' :: (sha ++ tail)) := by
    rw [scanULong_cons_ws (by decide)]
    exact scanULong_exact hn rfl
  have h3 : scanStr 64 (' ' :: (sha ++ tail)) = some (sha, tail) := by
    rw [scanStr_cons_ws (by decide)]
    exact scanStr_exact hh ht
  rw [scanLine, h1]
  simp only [h2, h3]

/-! ## Well-formedness of scanned tokens -/

theorem scanStr_wf {max : Nat} {cs t r : List Char} (hmax : 0 < max)
    (h : scanStr max cs = some (t, r)) : wfTok max t := by
  rw [scanStr] at h
  cases hs : skipWs cs with
  | nil => rw [hs] at h; simp at h
  | cons c rest =>
    rw [hs] at h
    simp only [Option.some.injEq, Prod.mk.injEq] at h
    obtain ⟨ht, _⟩ := h
    have hc : isWsC c = false := skipWs_head hs
    obtain ⟨m, rfl⟩ : ∃ m, max = m + 1 := ⟨max - 1, by omega⟩
    rw [readTok_cons_not_ws hc] at ht
    refine ⟨?_, ?_, ?_⟩
    · rw [← ht]; simp
    · rw [← ht]
      have := @readTok_length m rest
      simpa using this
    · intro x hx
      rw [← ht] at hx
      rcases List.mem_cons.mp hx with rfl | hx
      · exact hc
      · exact readTok_not_ws x hx

theorem scanULong_wf {cs : List Char} {v : Nat} {r : List Char}
    (h : scanULong cs = some (v, r)) : v ≤ ULONG_MAX := by
  rw [scanULong] at h
  by_cases hd : (readDigits (splitSign (skipWs cs)).2).1 = []
  · simp [hd] at h
  · simp only [hd, if_false] at h
    simp only [Option.some.injEq, Prod.mk.injEq] at h
    obtain ⟨hv, _⟩ := h
    have h64 : (2 : Nat) ^ 64 = 18446744073709551616 := by norm_num
    rw [← hv]
    by_cases h1 : ULONG_MAX < digitsToNat (readDigits (splitSign (skipWs cs)).2).1
    · simp [h1]
    · simp only [h1, if_false]
      by_cases h2 : (splitSign (skipWs cs)).1
      · simp only [h2, if_true]
        have := @Nat.mod_lt
          (2 ^ 64 - digitsToNat (readDigits (splitSign (skipWs cs)).2).1 % 2 ^ 64)
          (2 ^ 64) (by positivity)
        rw [ULONG_MAX]
        omega
      · simp only [h2, if_false]
        exact not_lt.mp h1

theorem scanLine_wf {line name : List Char} {sz : Nat} {sha : List Char}
    (h : scanLine line = some (name, sz, sha)) :
    wfTok 4096 name ∧ sz ≤ ULONG_MAX ∧ wfTok 64 sha := by
  rw [scanLine] at h
  cases h1 : scanStr 4096 line with
  | none => rw [h1] at h; simp at h
  | some pr1 =>
    obtain ⟨nm, r1⟩ := pr1
    rw [h1] at h
    cases h2 : scanULong r1 with
    | none => simp [h2] at h
    | some pr2 =>
      obtain ⟨v, r2⟩ := pr2
      simp only [h2] at h
      cases h3 : scanStr 64 r2 with
      | none => simp [h3] at h
      | some pr3 =>
        obtain ⟨sh, r3⟩ := pr3
        simp only [h3, Option.some.injEq, Prod.mk.injEq] at h
        obtain ⟨rfl, rfl, rfl⟩ := h
        exact ⟨scanStr_wf (by norm_num) h1, scanULong_wf h2, scanStr_wf (by norm_num) h3⟩

end TrustFile

namespace TrustFile

/-! ## Store membership -/

theorem list_contains_iff {l : List Entry} {k : List Char} :
    list_contains l k = true ↔ k ∈ keysOf l := by
  simp [list_contains, keysOf, List.any_eq_true, List.mem_map]

theorem list_contains_append {a b : List Entry} {k : List Char} :
    list_contains (a ++ b) k = (list_contains a k || list_contains b k) := by
  simp [list_contains, List.any_append]

theorem keysOf_append {a b : List Entry} : keysOf (a ++ b) = keysOf a ++ keysOf b := by
  simp [keysOf]

/-! ## trust_file_load structure -/

theorem trust_file_load_extend :
    ∀ (ls : List (List Char)) (st : List Entry),
      ∃ news, (trust_file_load ls st).2 = st ++ news ∧
        ∀ e ∈ news, list_contains st e.1 = false := by
  intro ls
  induction ls with
  | nil => intro st; exact ⟨[], by simp [trust_file_load], by simp⟩
  | cons line rest ih =>
    intro st
    rw [trust_file_load]
    cases hc : isComment line with
    | true => simpa [hc] using ih st
    | false =>
      simp only [hc, Bool.false_eq_true, if_false]
      cases hsc : scanLine line with
      | none => exact ⟨[], by simp, by simp⟩
      | some tri =>
        obtain ⟨name, sz, sha⟩ := tri
        cases hct : list_contains st name with
        | true => simpa [hct] using ih st
        | false =>
          simp only [hct, Bool.false_eq_true, if_false]
          obtain ⟨news, h1, h2⟩ := ih (st ++ [(name, mkData SRC_FILE_DB sz sha)])
          refine ⟨(name, mkData SRC_FILE_DB sz sha) :: news, ?_, ?_⟩
          · rw [h1]
            simp
          · intro e he
            rcases List.mem_cons.mp he with rfl | he
            · exact hct
            · have h3 := h2 e he
              rw [list_contains_append] at h3
              simp only [Bool.or_eq_false_iff] at h3
              exact h3.1

theorem trust_file_load_nodup :
    ∀ (ls : List (List Char)) (st : List Entry),
      (keysOf st).Nodup → (keysOf (trust_file_load ls st).2).Nodup := by
  intro ls
  induction ls with
  | nil => intro st h; simpa [trust_file_load] using h
  | cons line rest ih =>
    intro st h
    rw [trust_file_load]
    cases hc : isComment line with
    | true => simpa [hc] using ih st h
    | false =>
      simp only [hc, Bool.false_eq_true, if_false]
      cases hsc : scanLine line with
      | none => simpa using h
      | some tri =>
        obtain ⟨name, sz, sha⟩ := tri
        cases hct : list_contains st name with
        | true => simpa [hct] using ih st h
        | false =>
          simp only [hct, Bool.false_eq_true, if_false]
          apply ih
          rw [keysOf_append, List.nodup_append]
          refine ⟨h, by simp [keysOf], ?_⟩
          intro k hk
          simp only [keysOf, List.map_cons, List.map_nil, List.mem_singleton]
          intro hkk
          subst hkk
          rw [← list_contains_iff] at hk
          rw [hk] at hct
          cases hct

theorem trust_file_load_wf :
    ∀ (ls : List (List Char)) (st : List Entry),
      (∀ e ∈ st, WfEntry e) → ∀ e ∈ (trust_file_load ls st).2, WfEntry e := by
  intro ls
  induction ls with
  | nil => intro st h; simpa [trust_file_load] using h
  | cons line rest ih =>
    intro st h
    rw [trust_file_load]
    cases hc : isComment line with
    | true => simpa [hc] using ih st h
    | false =>
      simp only [hc, Bool.false_eq_true, if_false]
      cases hsc : scanLine line with
      | none => simpa using h
      | some tri =>
        obtain ⟨name, sz, sha⟩ := tri
        cases hct : list_contains st name with
        | true => simpa [hct] using ih st h
        | false =>
          simp only [hct, Bool.false_eq_true, if_false]
          apply ih
          intro e he
          rcases List.mem_append.mp he with he | he
          · exact h e he
          · obtain ⟨hwf1, hwf2, hwf3⟩ := scanLine_wf hsc
            simp only [List.mem_singleton] at he
            subst he
            exact ⟨sz, sha, hwf2, hwf1, hwf3, rfl⟩

theorem trust_file_load_entry_src :
    ∀ (ls : List (List Char)) (st : List Entry) (e : Entry),
      e ∈ (trust_file_load ls st).2 →
        e ∈ st ∨ ∃ line ∈ ls, isComment line = false ∧
          ∃ sz sha, scanLine line = some (e.1, sz, sha) ∧ e.2 = mkData SRC_FILE_DB sz sha := by
  intro ls
  induction ls with
  | nil => intro st e he; simp only [trust_file_load] at he; exact Or.inl he
  | cons line rest ih =>
    intro st e he
    rw [trust_file_load] at he
    cases hc : isComment line with
    | true =>
      rw [hc] at he
      simp only [if_true] at he
      rcases ih st e he with h | ⟨l, hl, h⟩
      · exact Or.inl h
      · exact Or.inr ⟨l, by simp [hl], h⟩
    | false =>
      rw [hc] at he
      simp only [Bool.false_eq_true, if_false] at he
      cases hsc : scanLine line with
      | none =>
        rw [hsc] at he
        exact Or.inl he
      | some tri =>
        obtain ⟨name, sz, sha⟩ := tri
        rw [hsc] at he
        cases hct : list_contains st name with
        | true =>
          simp only [hct, if_true] at he
          rcases ih st e he with h | ⟨l, hl, h⟩
          · exact Or.inl h
          · exact Or.inr ⟨l, by simp [hl], h⟩
        | false =>
          simp only [hct, Bool.false_eq_true, if_false] at he
          rcases ih _ e he with h | ⟨l, hl, h⟩
          · rcases List.mem_append.mp h with h | h
            · exact Or.inl h
            · simp only [List.mem_singleton] at h
              subst h
              exact Or.inr ⟨line, by simp, hc, sz, sha, hsc, rfl⟩
          · exact Or.inr ⟨l, by simp [hl], h⟩

theorem trust_file_load_comments :
    ∀ (hs rest : List (List Char)) (st : List Entry),
      (∀ l ∈ hs, isComment l = true) →
      trust_file_load (hs ++ rest) st = trust_file_load rest st := by
  intro hs
  induction hs with
  | nil => intro rest st _; rfl
  | cons l hs' ih =>
    intro rest st h
    have hl : isComment l = true := h l (by simp)
    rw [List.cons_append, trust_file_load, hl]
    simp only [if_true]
    exact ih rest st (fun x hx => h x (by simp [hx]))

theorem trust_file_load_fail_aux :
    ∀ (pre : List (List Char)) (st : List Entry),
      (∀ l ∈ pre, isComment l = true ∨ (scanLine l).isSome = true) →
      (trust_file_load pre st).1 = 0 ∧
        ∀ (bad : List Char) (rest : List (List Char)),
          isComment bad = false → scanLine bad = none →
          trust_file_load (pre ++ bad :: rest) st = (2, (trust_file_load pre st).2) := by
  intro pre
  induction pre with
  | nil =>
    intro st _
    refine ⟨rfl, ?_⟩
    intro bad rest hb hsb
    simp only [List.nil_append, trust_file_load, hb, Bool.false_eq_true, if_false, hsb]
  | cons l pre' ih =>
    intro st h
    have hl := h l (by simp)
    have h' : ∀ x ∈ pre', isComment x = true ∨ (scanLine x).isSome = true :=
      fun x hx => h x (by simp [hx])
    cases hc : isComment l with
    | true =>
      constructor
      · simp only [trust_file_load, hc, if_true]
        exact (ih st h').1
      · intro bad rest hb hsb
        simp only [List.cons_append, trust_file_load, hc, if_true]
        exact (ih st h').2 bad rest hb hsb
    | false =>
      rcases hl with hl | hl
      · rw [hc] at hl; cases hl
      · cases hsc : scanLine l with
        | none => rw [hsc] at hl; cases hl
        | some tri =>
          obtain ⟨name, sz, sha⟩ := tri
          cases hct : list_contains st name with
          | true =>
            constructor
            · simp only [trust_file_load, hc, Bool.false_eq_true, if_false, hsc, hct, if_true]
              exact (ih st h').1
            · intro bad rest hb hsb
              simp only [List.cons_append, trust_file_load, hc, Bool.false_eq_true, if_false,
                hsc, hct, if_true]
              exact (ih st h').2 bad rest hb hsb
          | false =>
            constructor
            · simp only [trust_file_load, hc, Bool.false_eq_true, if_false, hsc, hct]
              exact (ih _ h').1
            · intro bad rest hb hsb
              simp only [List.cons_append, trust_file_load, hc, Bool.false_eq_true, if_false,
                hsc, hct]
              exact (ih _ h').2 bad rest hb hsb

end TrustFile

namespace TrustFile

/-! ## Mutator loop structure -/

theorem nil_isPrefixOf (l : List Char) : List.isPrefixOf ([] : List Char) l = true := by
  cases l <;> rfl

theorem removeMatching_eq (p : List Char) :
    ∀ l : List Entry,
      removeMatching p l =
        ((l.filter (fun e => p.isPrefixOf e.1)).length,
          l.filter (fun e => ! p.isPrefixOf e.1)) := by
  intro l
  induction l with
  | nil => rfl
  | cons e rest ih =>
    cases hm : List.isPrefixOf p e.1 with
    | true => simp [removeMatching, hm, ih, List.filter_cons]
    | false => simp [removeMatching, hm, ih, List.filter_cons]

theorem updateEntries_eq (fs : Fs) (p : List Char) :
    ∀ l : List Entry,
      updateEntries fs p l =
        ((l.filter (fun e => p.isPrefixOf e.1)).length,
          l.map (fun e =>
            (e.1, if p.isPrefixOf e.1 then make_path_string fs e.1 false else some e.2))) := by
  intro l
  induction l with
  | nil => rfl
  | cons e rest ih =>
    cases hm : List.isPrefixOf p e.1 with
    | true =>
      have hm2 : p <+: e.1 := List.isPrefixOf_iff_prefix.mp hm
      simp [updateEntries, hm, ih, List.filter_cons, hm2]
    | false =>
      have hm2 : ¬ p <+: e.1 := by
        rw [← List.isPrefixOf_iff_prefix, hm]
        simp
      simp [updateEntries, hm, ih, List.filter_cons, hm2]

/-! ## Rendering and re-scanning a stored record -/

theorem renderEntry_canonical {e : Entry} (h : WfEntry e) :
    ∃ sz sha, sz ≤ ULONG_MAX ∧ e.2 = mkData SRC_FILE_DB sz sha ∧
      renderEntry e = e.1 ++ ' ' :: (natRepr sz ++ ' ' :: sha) ∧
      scanLine (renderEntry e) = some (e.1, sz, sha) := by
  obtain ⟨sz, sha, h1, h2, h3, h4⟩ := h
  have hdrop : renderEntry e = e.1 ++ ' ' :: (natRepr sz ++ ' ' :: sha) := by
    rw [renderEntry, h4, mkData_drop_two (by decide)]
  refine ⟨sz, sha, h1, h4, hdrop, ?_⟩
  rw [hdrop]
  have := @scanLine_canonical e.1 sha sz [] h2 h3 h1 rfl
  simpa using this

theorem headerLines_comments : ∀ l ∈ headerLines, isComment l = true := by
  intro l hl
  fin_cases hl <;> rfl

/-! ## Merge -/

theorem list_merge_nil_left (l : List Entry) : list_merge [] l = l := by
  simp [list_merge, list_contains]

/-! ## Fragment traversal: loading -/

theorem ftw_load_append (a b : List (List (List Char))) :
    ∀ st, ftw_load (a ++ b) st = ftw_load b (ftw_load a st) := by
  induction a with
  | nil => intro st; rfl
  | cons f rest ih => intro st; rw [List.cons_append, ftw_load, ftw_load, ih]

theorem ftw_load_extend :
    ∀ (fs : List (List (List Char))) (st : List Entry),
      ∃ news, ftw_load fs st = st ++ news ∧
        ∀ e ∈ news, list_contains st e.1 = false := by
  intro fs
  induction fs with
  | nil => intro st; exact ⟨[], by simp [ftw_load], by simp⟩
  | cons f rest ih =>
    intro st
    obtain ⟨n1, h1, h1f⟩ := trust_file_load_extend f st
    obtain ⟨n2, h2, h2f⟩ := ih (trust_file_load f st).2
    refine ⟨n1 ++ n2, ?_, ?_⟩
    · rw [ftw_load, h2, h1, List.append_assoc]
    · intro e he
      rcases List.mem_append.mp he with he | he
      · exact h1f e he
      · have h3 := h2f e he
        rw [h1, list_contains_append] at h3
        simp only [Bool.or_eq_false_iff] at h3
        exact h3.1

theorem ftw_load_nodup :
    ∀ (fs : List (List (List Char))) (st : List Entry),
      (keysOf st).Nodup → (keysOf (ftw_load fs st)).Nodup := by
  intro fs
  induction fs with
  | nil => intro st h; simpa [ftw_load] using h
  | cons f rest ih =>
    intro st h
    rw [ftw_load]
    exact ih _ (trust_file_load_nodup f st h)

theorem ftw_load_wf :
    ∀ (fs : List (List (List Char))) (st : List Entry),
      (∀ e ∈ st, WfEntry e) → ∀ e ∈ ftw_load fs st, WfEntry e := by
  intro fs
  induction fs with
  | nil => intro st h; simpa [ftw_load] using h
  | cons f rest ih =>
    intro st h
    rw [ftw_load]
    exact ih _ (trust_file_load_wf f st h)

end TrustFile

namespace TrustFile

/-! ## Deduplication scrubbing -/

theorem lineKey_comment {line : List Char} (h : isComment line = true) :
    lineKey line = none := by
  simp [lineKey, h]

theorem lineKey_scanned {line : List Char} {name : List Char} {sz : Nat} {sha : List Char}
    (hc : isComment line = false) (hs : scanLine line = some (name, sz, sha)) :
    lineKey line = some name := by
  simp [lineKey, hc, hs]

theorem fileHasKey_cons {line : List Char} {rest : List (List Char)} {k : List Char} :
    fileHasKey (line :: rest) k
      = (decide (lineKey line = some k) || fileHasKey rest k) := by
  simp [fileHasKey]

theorem trust_file_rm_duplicates_filter :
    ∀ (lines : List (List Char)) (cand : List Entry),
      (∀ l ∈ lines, isComment l = true ∨ (scanLine l).isSome = true) →
      (trust_file_rm_duplicates lines cand).2
        = cand.filter (fun e => ! fileHasKey lines e.1) := by
  intro lines
  induction lines with
  | nil =>
    intro cand _
    simp [trust_file_rm_duplicates, fileHasKey]
  | cons line rest ih =>
    intro cand h
    have h' : ∀ x ∈ rest, isComment x = true ∨ (scanLine x).isSome = true :=
      fun x hx => h x (by simp [hx])
    cases hc : isComment line with
    | true =>
      rw [trust_file_rm_duplicates, hc]
      simp only [if_true]
      rw [ih cand h']
      apply List.filter_congr
      intro e _
      rw [fileHasKey_cons, lineKey_comment hc]
      simp
    | false =>
      rcases h line (by simp) with hl | hl
      · rw [hc] at hl; cases hl
      · obtain ⟨⟨name, sz, sha⟩, hsc⟩ := Option.isSome_iff_exists.mp hl
        rw [trust_file_rm_duplicates, hc]
        simp only [Bool.false_eq_true, if_false, hsc]
        by_cases hlen : (list_remove cand name).length = 0
        · simp only [hlen, if_true]
          have hnil : list_remove cand name = [] := List.length_eq_zero.mp hlen
          rw [hnil]
          symm
          rw [List.filter_eq_nil_iff]
          intro e he
          have hek : e.1 = name := by
            by_contra hne
            have hmem : e ∈ list_remove cand name := by
              rw [list_remove, List.mem_filter]
              exact ⟨he, by simp [hne]⟩
            rw [hnil] at hmem
            simp at hmem
          rw [fileHasKey_cons, lineKey_scanned hc hsc, hek]
          simp
        · simp only [hlen, if_false]
          rw [ih _ h', list_remove, List.filter_filter]
          apply List.filter_congr
          intro e _
          rw [fileHasKey_cons, lineKey_scanned hc hsc]
          cases hek : decide (e.1 = name) with
          | true => simp at hek; simp [hek]
          | false => simp at hek; simp [hek, Ne.symm hek]

theorem ftw_rm_duplicates_filter :
    ∀ (files : List (List (List Char))) (cand : List Entry),
      (∀ f ∈ files, ∀ l ∈ f, isComment l = true ∨ (scanLine l).isSome = true) →
      ftw_rm_duplicates files cand
        = cand.filter (fun e => ! files.any (fun f => fileHasKey f e.1)) := by
  intro files
  induction files with
  | nil =>
    intro cand _
    simp [ftw_rm_duplicates]
  | cons f rest ih =>
    intro cand h
    rw [ftw_rm_duplicates]
    by_cases hlen : cand.length = 0
    · have : cand = [] := List.length_eq_zero.mp hlen
      subst this
      simp
    · simp only [hlen, if_false]
      rw [trust_file_rm_duplicates_filter f cand (h f (by simp)),
        ih _ (fun x hx => h x (by simp [hx])), List.filter_filter]
      apply List.filter_congr
      intro e _
      simp [Bool.not_or, Bool.and_comm]

end TrustFile

namespace TrustFile

/-- Loading a file written by `write_out_list` yields only keys of the written
records: the headers are comments, and each record line re-scans to its own
key (or, when the key itself begins like a comment, is skipped). -/
theorem load_write_out_keys (l : List Entry) (hwf : ∀ e ∈ l, WfEntry e) :
    ∀ e ∈ (trust_file_load (write_out_list l) []).2, ∃ e0 ∈ l, e.1 = e0.1 := by
  intro e he
  rw [write_out_list,
    trust_file_load_comments headerLines (l.map renderEntry) [] headerLines_comments] at he
  rcases trust_file_load_entry_src _ _ _ he with h | ⟨line, hline, hnc, sz, sha, hscan, hdata⟩
  · simp at h
  · obtain ⟨e0, he0, rfl⟩ := List.mem_map.mp hline
    obtain ⟨sz0, sha0, _, _, _, hscan0⟩ := renderEntry_canonical (hwf e0 he0)
    rw [hscan0] at hscan
    simp only [Option.some.injEq, Prod.mk.injEq] at hscan
    exact ⟨e0, he0, hscan.1.symm⟩

end TrustFile

namespace TrustFile

/-- C1: over any sequence of loads performed by `trust_file_load_all`
(primary file first, then the fragment files in traversal order), the
resulting store has no duplicate keys; after every intermediate load the
store likewise has no duplicate keys; and the final store extends every
intermediate store in place — every record present after loading the first
`i` fragment files survives unchanged, and every record added later has a
key not yet present, so the record kept for a key is the one from whichever
file was loaded first and later duplicates are dropped, not overwritten. -/
theorem trust_file_load_all_unique_first_wins (primary : List (List Char))
    (frags : List (List (List Char))) :
    (keysOf (trust_file_load_all primary frags [])).Nodup ∧
    (∀ i, (keysOf (trust_file_load_all primary (frags.take i) [])).Nodup) ∧
    (∀ i, ∃ news,
      trust_file_load_all primary frags []
        = trust_file_load_all primary (frags.take i) [] ++ news ∧
      ∀ e ∈ news,
        list_contains (trust_file_load_all primary (frags.take i) []) e.1 = false) := by
  have hbase : (keysOf (trust_file_load primary []).2).Nodup :=
    trust_file_load_nodup primary [] (by simp [keysOf])
  have hmerge : ∀ fr, trust_file_load_all primary fr []
      = ftw_load fr (trust_file_load primary []).2 := by
    intro fr
    rw [trust_file_load_all, list_merge_nil_left]
  refine ⟨?_, ?_, ?_⟩
  · rw [hmerge]
    exact ftw_load_nodup _ _ hbase
  · intro i
    rw [hmerge]
    exact ftw_load_nodup _ _ hbase
  · intro i
    rw [hmerge, hmerge]
    obtain ⟨news, h1, h2⟩ :=
      ftw_load_extend (frags.drop i) (ftw_load (frags.take i) (trust_file_load primary []).2)
    refine ⟨news, ?_, h2⟩
    conv_lhs => rw [← List.take_append_drop i frags]
    rw [ftw_load_append]
    exact h1

/-- Witness for C1 at a concrete overlapping primary/fragment pair: the final
store is duplicate-free and keeps the primary file's record for `/a`. -/
theorem trust_file_load_all_unique_first_wins_witness :
    (keysOf (trust_file_load_all ["/a 1 h1".data]
        [["/a 2 h2".data, "/b 3 h3".data]] [])).Nodup ∧
    trust_file_load_all ["/a 1 h1".data] [["/a 2 h2".data, "/b 3 h3".data]] []
      = [("/a".data, mkData SRC_FILE_DB 1 "h1".data),
         ("/b".data, mkData SRC_FILE_DB 3 "h3".data)] :=
  ⟨(trust_file_load_all_unique_first_wins ["/a 1 h1".data]
      [["/a 2 h2".data, "/b 3 h3".data]]).1, by decide⟩

/-- C2: a record whose stored value is the internal encoding (single-digit
source tag plus one separator, then size and hash) renders by stripping
exactly the first two characters of the value, producing the on-disk line
`<path> <size> <hash>`, and scanning that line back recovers the original
path, size and hash exactly. -/
theorem render_parse_round_trip (path sha : List Char) (sz t : Nat)
    (hp : wfTok 4096 path) (hh : wfTok 64 sha) (hn : sz ≤ ULONG_MAX)
    (ht : t < 10) :
    renderEntry (path, mkData t sz sha) = path ++ ' ' :: (natRepr sz ++ ' ' :: sha) ∧
    scanLine (renderEntry (path, mkData t sz sha)) = some (path, sz, sha) := by
  have hdrop : renderEntry (path, mkData t sz sha)
      = path ++ ' ' :: (natRepr sz ++ ' ' :: sha) := by
    rw [renderEntry]
    simp only
    rw [mkData_drop_two ht]
  refine ⟨hdrop, ?_⟩
  rw [hdrop]
  have h := @scanLine_canonical path sha sz [] hp hh hn rfl
  simpa using h

/-- Witness for C2 at the spec's example record. -/
theorem render_parse_round_trip_witness :
    renderEntry ("/bin/ls".data, mkData SRC_FILE_DB 157984 "61a9d1b87".data)
      = "/bin/ls 157984 61a9d1b87".data ∧
    scanLine (renderEntry ("/bin/ls".data, mkData SRC_FILE_DB 157984 "61a9d1b87".data))
      = some ("/bin/ls".data, 157984, "61a9d1b87".data) := by
  have h := render_parse_round_trip "/bin/ls".data "61a9d1b87".data 157984 SRC_FILE_DB
    (by unfold wfTok; decide) (by unfold wfTok; decide) (by decide) (by decide)
  exact ⟨by rw [h.1]; decide, h.2⟩

/-- C4: loading a file made of well-formed (or comment) lines, then one
malformed line, then anything, stops at the malformed line, returns error
code 2, and leaves the destination store exactly as it was after the
well-formed prefix — which itself loads without error. -/
theorem trust_file_load_fail_fast (pre : List (List Char)) (bad : List Char)
    (rest : List (List Char)) (st : List Entry)
    (hpre : ∀ l ∈ pre, isComment l = true ∨ (scanLine l).isSome = true)
    (hbc : isComment bad = false) (hbs : scanLine bad = none) :
    trust_file_load (pre ++ bad :: rest) st = (2, (trust_file_load pre st).2) ∧
    (trust_file_load pre st).1 = 0 :=
  ⟨(trust_file_load_fail_aux pre st hpre).2 bad rest hbc hbs,
   (trust_file_load_fail_aux pre st hpre).1⟩

/-- Witness for C4 at the spec's example: one good record then `garbage`. -/
theorem trust_file_load_fail_fast_witness :
    trust_file_load (["/bin/ls 157984 61a9d1b87".data] ++ "garbage".data :: []) []
      = (2, (trust_file_load ["/bin/ls 157984 61a9d1b87".data] []).2) ∧
    (trust_file_load ["/bin/ls 157984 61a9d1b87".data] []).1 = 0 :=
  trust_file_load_fail_fast ["/bin/ls 157984 61a9d1b87".data] "garbage".data [] []
    (by decide) (by decide) (by decide)

/-- C5 (code bug evidence): updating by a prefix that matches a record whose
path can no longer be opened does not skip the record and leave its value
untouched — the loop frees the old value, stores the NULL result of
`make_path_string`, and still increments the count, after which the rewrite
evaluates `str + 2` on that NULL value (undefined behavior, modelled as an
undefined output `none`). -/
theorem trust_file_update_path_vanished_bug :
    trust_file_update_path (fun _ => none) ["/gone 5 ab".data] "/gone".data
      = (1, none) := by
  decide

/-- C6 counterexample: a non-comment line with a fourth trailing token is
accepted by the load scan (the first three fields are taken and the rest is
ignored), not rejected as a malformed record: the claimed rejection is
false. -/
theorem trailing_tokens_accepted :
    trust_file_load ["/bin/ls 10 ab extra".data] []
      = (0, [("/bin/ls".data, mkData SRC_FILE_DB 10 "ab".data)]) := by
  decide

/-- C6 amended: a non-comment line is accepted whenever its first three
whitespace-delimited fields scan as a path token, an unsigned decimal size
and a hash token; everything after the third field — including extra
trailing tokens — is ignored rather than rejected. -/
theorem scanLine_first_three_fields (path sha extra : List Char) (sz : Nat)
    (hp : wfTok 4096 path) (hh : wfTok 64 sha) (hn : sz ≤ ULONG_MAX) :
    scanLine (path ++ ' ' :: (natRepr sz ++ ' ' :: (sha ++ ' ' :: extra)))
      = some (path, sz, sha) :=
  scanLine_canonical hp hh hn rfl

/-- Witness for the amended C6 with concrete trailing junk. -/
theorem scanLine_first_three_fields_witness :
    scanLine ("/bin/ls".data ++ ' ' :: (natRepr 10 ++ ' ' ::
        ("ab".data ++ ' ' :: "extra junk".data)))
      = some ("/bin/ls".data, 10, "ab".data) :=
  scanLine_first_three_fields "/bin/ls".data "ab".data "extra junk".data 10
    (by unfold wfTok; decide) (by unfold wfTok; decide) (by decide)

end TrustFile

namespace TrustFile

/-- C3: delete-by-prefix removes exactly the records whose key starts with
`p` (literal prefix match), returns their number, leaves the file untouched
when that number is zero and rewrites it (header plus survivors) when it is
nonzero; afterwards the file loads no record whose key starts with `p`, so
an immediately repeated call returns zero. -/
theorem trust_file_delete_path_correct (content : List (List Char)) (p : List Char) :
    (trust_file_delete_path content p).1
      = ((trust_file_load content []).2.filter (fun e => p.isPrefixOf e.1)).length ∧
    (removeMatching p (trust_file_load content []).2).2
      = (trust_file_load content []).2.filter (fun e => ! p.isPrefixOf e.1) ∧
    ((trust_file_delete_path content p).1 = 0 →
      (trust_file_delete_path content p).2 = content) ∧
    ((trust_file_delete_path content p).1 ≠ 0 →
      (trust_file_delete_path content p).2
        = write_out_list
            ((trust_file_load content []).2.filter (fun e => ! p.isPrefixOf e.1))) ∧
    (∀ e ∈ (trust_file_load (trust_file_delete_path content p).2 []).2,
      p.isPrefixOf e.1 = false) ∧
    (trust_file_delete_path (trust_file_delete_path content p).2 p).1 = 0 := by
  have hrm := removeMatching_eq p (trust_file_load content []).2
  have hcount : (trust_file_delete_path content p).1
      = ((trust_file_load content []).2.filter (fun e => p.isPrefixOf e.1)).length := by
    rw [trust_file_delete_path, trust_file_delete_path_w]
    simp only [hrm]
  have hsurv := congrArg Prod.snd hrm
  have hout : (trust_file_delete_path content p).1 ≠ 0 →
      (trust_file_delete_path content p).2
        = write_out_list
            ((trust_file_load content []).2.filter (fun e => ! p.isPrefixOf e.1)) := by
    intro h0
    rw [hcount] at h0
    rw [trust_file_delete_path, trust_file_delete_path_w]
    simp only [hrm, h0, if_false, if_true]
  have hsame : (trust_file_delete_path content p).1 = 0 →
      (trust_file_delete_path content p).2 = content := by
    intro h0
    rw [hcount] at h0
    rw [trust_file_delete_path, trust_file_delete_path_w]
    simp only [hrm, h0, if_true]
  have hnomatch : ∀ e ∈ (trust_file_load (trust_file_delete_path content p).2 []).2,
      p.isPrefixOf e.1 = false := by
    by_cases h0 : (trust_file_delete_path content p).1 = 0
    · intro e he
      rw [hsame h0] at he
      rw [hcount] at h0
      have hall := List.filter_eq_nil_iff.mp (List.length_eq_zero.mp h0)
      exact Bool.eq_false_iff.mpr (hall e he)
    · intro e he
      rw [hout h0] at he
      have hwf : ∀ x ∈ (trust_file_load content []).2.filter
          (fun e => ! p.isPrefixOf e.1), WfEntry x := by
        intro x hx
        exact trust_file_load_wf content [] (by simp) x (List.mem_filter.mp hx).1
      obtain ⟨e0, he0, hk⟩ := load_write_out_keys _ hwf e he
      have := (List.mem_filter.mp he0).2
      rw [hk]
      simpa using this
  refine ⟨hcount, hsurv, hsame, hout, hnomatch, ?_⟩
  have hcount2 : (trust_file_delete_path (trust_file_delete_path content p).2 p).1
      = ((trust_file_load (trust_file_delete_path content p).2 []).2.filter
          (fun e => p.isPrefixOf e.1)).length := by
    rw [trust_file_delete_path, trust_file_delete_path_w]
    simp only [removeMatching_eq]
  rw [hcount2, List.length_eq_zero]
  rw [List.filter_eq_nil_iff]
  intro e he
  simp [hnomatch e he]

/-- Witness for C3: deleting prefix `/a/b` removes `/a/b` and `/a/bc`
(count 2) and a repeated call returns zero. -/
theorem trust_file_delete_path_correct_witness :
    (trust_file_delete_path
        ["/a/b 1 h1".data, "/a/bc 2 h2".data, "/z 3 h3".data] "/a/b".data).1 = 2 ∧
    (trust_file_delete_path
        (trust_file_delete_path
          ["/a/b 1 h1".data, "/a/bc 2 h2".data, "/z 3 h3".data] "/a/b".data).2
        "/a/b".data).1 = 0 := by
  have h := trust_file_delete_path_correct
    ["/a/b 1 h1".data, "/a/bc 2 h2".data, "/z 3 h3".data] "/a/b".data
  exact ⟨by rw [h.1]; decide, h.2.2.2.2.2⟩

/-- C7: over well-formed on-disk files, deduplication leaves in the
candidate store exactly the records whose key appears in none of the files;
in particular it empties the store when every candidate key is on disk, and
leaves the store unchanged when none is. -/
theorem trust_file_rm_duplicates_all_correct (primary : List (List Char))
    (frags : List (List (List Char))) (cand : List Entry)
    (hp : ∀ l ∈ primary, isComment l = true ∨ (scanLine l).isSome = true)
    (hf : ∀ f ∈ frags, ∀ l ∈ f, isComment l = true ∨ (scanLine l).isSome = true) :
    trust_file_rm_duplicates_all primary frags cand
      = cand.filter (fun e => ! diskHasKey primary frags e.1) ∧
    ((∀ e ∈ cand, diskHasKey primary frags e.1 = true) →
      trust_file_rm_duplicates_all primary frags cand = []) ∧
    ((∀ e ∈ cand, diskHasKey primary frags e.1 = false) →
      trust_file_rm_duplicates_all primary frags cand = cand) := by
  have hmain : trust_file_rm_duplicates_all primary frags cand
      = cand.filter (fun e => ! diskHasKey primary frags e.1) := by
    rw [trust_file_rm_duplicates_all, list_merge_nil_left,
      trust_file_rm_duplicates_filter primary cand hp,
      ftw_rm_duplicates_filter frags _ hf, List.filter_filter]
    apply List.filter_congr
    intro e _
    simp [diskHasKey, Bool.not_or, Bool.and_comm]
  refine ⟨hmain, ?_, ?_⟩
  · intro h
    rw [hmain, List.filter_eq_nil_iff]
    intro e he
    simp [h e he]
  · intro h
    rw [hmain]
    apply List.filter_eq_self.mpr
    intro e he
    simp [h e he]

/-- Witness for C7: `/a` is on disk (primary), `/c` is not; dedup keeps
exactly the `/c` candidate. -/
theorem trust_file_rm_duplicates_all_correct_witness :
    trust_file_rm_duplicates_all ["/a 1 h".data] [["/b 2 i".data]]
      [("/a".data, "x".data), ("/c".data, "y".data)]
      = [("/c".data, "y".data)] := by
  have h := trust_file_rm_duplicates_all_correct ["/a 1 h".data] [["/b 2 i".data]]
    [("/a".data, "x".data), ("/c".data, "y".data)] (by decide) (by decide)
  rw [h.1]
  decide

/-- C8 counterexample: after update-by-prefix `/y`, the non-matching record
whose original line was `/x 05 bb` is rewritten as the canonical line
`/x 5 bb` — not byte-for-byte the original line, so the claimed byte-level
frame property is false. -/
theorem update_rewrite_not_byte_identical :
    (trust_file_update_path
        (fun k => if k = "/y".data then some (2, "cc".data) else none)
        ["/y 1 aa".data, "/x 05 bb".data] "/y".data).2
      = some (headerLines ++ ["/y 2 cc".data, "/x 5 bb".data]) ∧
    "/x 5 bb".data ≠ "/x 05 bb".data := by
  constructor
  · decide
  · decide

/-- C8 amended: update-by-prefix counts and re-derives exactly the records
whose key starts with `p`; every non-matching record keeps its stored value
unchanged and is written back as the canonical rendering
`<path> <size> <hash>` of that unchanged value (byte-for-byte identical to
its original line exactly when that line was already canonical), and that
canonical line re-scans to the very same path, size and hash. -/
theorem trust_file_update_path_frame (fs : Fs) (content : List (List Char))
    (p : List Char) :
    (trust_file_update_path fs content p).1
      = ((trust_file_load content []).2.filter (fun e => p.isPrefixOf e.1)).length ∧
    (updateEntries fs p (trust_file_load content []).2).2
      = (trust_file_load content []).2.map (fun e =>
          (e.1, if p.isPrefixOf e.1 then make_path_string fs e.1 false else some e.2)) ∧
    (∀ e ∈ (trust_file_load content []).2, p.isPrefixOf e.1 = false →
      ∃ sz sha, sz ≤ ULONG_MAX ∧ e.2 = mkData SRC_FILE_DB sz sha ∧
        renderEntryOpt (e.1, some e.2)
          = some (e.1 ++ ' ' :: (natRepr sz ++ ' ' :: sha)) ∧
        scanLine (e.1 ++ ' ' :: (natRepr sz ++ ' ' :: sha))
          = some (e.1, sz, sha)) := by
  refine ⟨?_, ?_, ?_⟩
  · rw [trust_file_update_path]
    simp only [updateEntries_eq]
  · rw [updateEntries_eq]
  · intro e he _
    have hwf := trust_file_load_wf content [] (by simp) e he
    obtain ⟨sz, sha, h1, h2, h3, h4⟩ := renderEntry_canonical hwf
    refine ⟨sz, sha, h1, h2, ?_, ?_⟩
    · show some (renderEntry e) = _
      exact congrArg some h3
    · rw [← h3]
      exact h4

/-- Witness for the amended C8: one matching record (`/y`, count 1) and the
non-matching `/x` record with stored size 5 and hash `bb`. -/
theorem trust_file_update_path_frame_witness :
    (trust_file_update_path
        (fun k => if k = "/y".data then some (2, "cc".data) else none)
        ["/y 1 aa".data, "/x 05 bb".data] "/y".data).1 = 1 ∧
    ∃ sz sha, sz ≤ ULONG_MAX ∧
      ("/x".data, mkData SRC_FILE_DB 5 "bb".data).2 = mkData SRC_FILE_DB sz sha ∧
      renderEntryOpt ("/x".data, some (mkData SRC_FILE_DB 5 "bb".data))
        = some ("/x".data ++ ' ' :: (natRepr sz ++ ' ' :: sha)) ∧
      scanLine ("/x".data ++ ' ' :: (natRepr sz ++ ' ' :: sha))
        = some ("/x".data, sz, sha) := by
  have h := trust_file_update_path_frame
    (fun k => if k = "/y".data then some (2, "cc".data) else none)
    ["/y 1 aa".data, "/x 05 bb".data] "/y".data
  constructor
  · rw [h.1]
    decide
  · exact h.2.2 ("/x".data, mkData SRC_FILE_DB 5 "bb".data) (by decide) (by decide)

/-- C9: the empty prefix matches every key (a zero-length `strncmp` always
succeeds), so delete-by-prefix with the empty string removes every loaded
record and returns the full record count, and update-by-prefix with the
empty string re-derives every record; neither operation special-cases the
empty prefix. -/
theorem empty_path_matches_every_record (content : List (List Char)) (fs : Fs) :
    (trust_file_delete_path content []).1 = (trust_file_load content []).2.length ∧
    (removeMatching [] (trust_file_load content []).2).2 = [] ∧
    (trust_file_update_path fs content []).1 = (trust_file_load content []).2.length ∧
    (updateEntries fs [] (trust_file_load content []).2).2
      = (trust_file_load content []).2.map
          (fun e => (e.1, make_path_string fs e.1 false)) := by
  have hfull : ∀ l : List Entry,
      l.filter (fun e => List.isPrefixOf [] e.1) = l := by
    intro l
    apply List.filter_eq_self.mpr
    intro e _
    exact nil_isPrefixOf e.1
  have hempty : ∀ l : List Entry,
      l.filter (fun e => ! List.isPrefixOf [] e.1) = [] := by
    intro l
    rw [List.filter_eq_nil_iff]
    intro e _
    simp [nil_isPrefixOf]
  refine ⟨?_, ?_, ?_, ?_⟩
  · rw [trust_file_delete_path, trust_file_delete_path_w]
    simp only [removeMatching_eq, hfull]
  · rw [removeMatching_eq]
    exact hempty _
  · rw [trust_file_update_path]
    simp only [updateEntries_eq, hfull]
  · rw [updateEntries_eq]
    simp [nil_isPrefixOf]

/-- C10: when the destination cannot be opened for rewriting, delete-by-prefix
still returns the number of records it removed from the in-memory store —
the same count as on a successful rewrite, namely the number of
prefix-matching loaded records — while the file content stays as it was, so
a nonzero return does not imply the file on disk was updated. -/
theorem delete_count_ignores_write_failure (content : List (List Char))
    (p : List Char) :
    (trust_file_delete_path_w false content p).1
      = (trust_file_delete_path_w true content p).1 ∧
    (trust_file_delete_path_w false content p).1
      = ((trust_file_load content []).2.filter (fun e => p.isPrefixOf e.1)).length ∧
    (trust_file_delete_path_w false content p).2 = content := by
  refine ⟨rfl, ?_, ?_⟩
  · rw [trust_file_delete_path_w]
    simp only [removeMatching_eq]
  · rw [trust_file_delete_path_w]
    simp only [removeMatching_eq]
    by_cases h0 : ((trust_file_load content []).2.filter
        (fun e => p.isPrefixOf e.1)).length = 0
    · simp [h0]
    · simp [h0]

end TrustFile
